import Mathlib

/-!
Shallow embedding of `onnxruntime/core/framework/sparse_utils.cc` (namespace
`onnxruntime::sparse_utils`): dense/COO/CSR tensor conversions, the COO/CSR
interconverters and transpose, and the sorted-index matcher.

Modelling conventions, used throughout:
* Element storage is generic: an element type `α` with decidable equality and a
  designated zero element `zero`.  The source dispatches once per call on the
  element byte width (1/2/4/8) or the string type and then treats elements as
  opaque PODs (respectively strings); each codec variant performs the same
  index-level algorithm, which is what these definitions embed.
* Tensor shapes are lists of `Nat` dimensions; index arithmetic that the source
  performs on `int64_t` values that may be negative is done on `Int`, with
  `Int.tdiv` for C++ `/` (truncation toward zero); loop counters that the source
  keeps non-negative are `Nat`.
* Destination raw buffers are total functions `Int → α`, mirroring pointer
  arithmetic `output + dst_idx` (a write at a negative offset is representable);
  a finished dense tensor is read back with `ReadBuffer`.
* The device-locality shim (CPU staging copies, allocators, data-transfer
  lookup) is identity on the CPU path embedded here; `Status` returns become
  `Except ConvError` with the error kinds of the specification.
-/

namespace sparse_utils

/-- Error kinds reported by the conversion routines, named as in the
specification's error-handling design. -/
inductive ConvError where
  | UnsupportedRank
  | InvalidIndexMode
  | UnsupportedElementWidth
  | UnsupportedLocationForStrings
  | MalformedIndices
  | IndexOutOfRange
  | DuplicateCoordinate
deriving DecidableEq

deriving instance DecidableEq for Except

variable {α : Type} [DecidableEq α]

/-- Modelled from the spec: `NotZero<T>` is declared in `sparse_utils.h`, which is
not among the sources (only its caller `sparse_utils.cc` is).  Per the Element
Codec contract it reports whether an element differs from the zero element (the
all-zero-bytes POD value, respectively the empty string). -/
def NotZero (zero v : α) : Bool := decide (v ≠ zero)

/-- Modelled from the spec: `CopyElementFunc` / `CopyElementAligned<T>` are
declared in `sparse_utils.h`, not among the sources.  Per the Element Codec
contract the call `copy_func(output, values, dst_idx, src_idx)` copies the
source element at `src_idx` into the destination buffer at `dst_idx`. -/
def CopyElementAligned (dflt : α) (output : Int → α) (values : List α)
    (dstIdx : Int) (srcIdx : Nat) : Int → α :=
  fun j => if j = dstIdx then values.getD srcIdx dflt else output j

/-- Reads `n` row-major elements of a destination buffer back as a list. -/
def ReadBuffer (buf : Int → α) (n : Nat) : List α :=
  (List.range n).map fun i => buf i

/-- Embeds the loop body of `ScanAndRecordCsr` (sparse_utils.cc:21-42).  State:
remaining source elements, current `row`, running linear `index`, collected
`inner` and `outer` indices, recorded values.  On each element the row pointer
is pushed if the row advanced, then the element is recorded if non-zero; one
final outer entry equal to `inner.size()` is pushed after the loop. -/
def ScanAndRecordCsrAux (zero : α) (cols : Nat) :
    List α → Nat → Nat → List Int → List Int → List α → List Int × List Int × List α
  | [], _, _, inner, outer, vals => (inner, outer ++ [(inner.length : Int)], vals)
  | v :: rest, row, index, inner, outer, vals =>
    let curRow := index / cols
    let s := if curRow ≠ row then (outer ++ [(inner.length : Int)], curRow) else (outer, row)
    if NotZero zero v then
      ScanAndRecordCsrAux zero cols rest s.2 (index + 1)
        (inner ++ [((index - curRow * cols : Nat) : Int)]) s.1 (vals ++ [v])
    else
      ScanAndRecordCsrAux zero cols rest s.2 (index + 1) inner s.1 vals

/-- Embeds `ScanAndRecordCsr` (sparse_utils.cc:21-42): initial state is row 0,
index 0, empty inner indices and values, and outer indices `[0]`.  Returns
`(inner, outer, values)`. -/
def ScanAndRecordCsr (zero : α) (src : List α) (cols : Nat) :
    List Int × List Int × List α :=
  ScanAndRecordCsrAux zero cols src 0 0 [] [0] []

/-- Embeds `DenseTensorToSparseCsr` (sparse_utils.cc:44-149) on the CPU path.
A non-2-D shape is rejected; the dense buffer is scanned with
`ScanAndRecordCsr`; then (line 128) `outer_size` is truncated to `0` whenever
`nnz = 0`, so `MakeCsrData` allocates an empty outer sequence in that case.
Returns `(values, inner, outer)`. -/
def DenseTensorToSparseCsr (zero : α) (dims : List Nat) (data : List α) :
    Except ConvError (List α × List Int × List Int) :=
  if dims.length ≠ 2 then .error .UnsupportedRank
  else
    let cols := dims.getD 1 0
    let r := ScanAndRecordCsr zero data cols
    let nnz := r.1.length
    .ok (r.2.2, r.1, if 0 < nnz then r.2.1 else [])

/-- Embeds the inner `cnt` loop of `SparseCsrToDenseTensor`
(sparse_utils.cc:235-243).  `srcIdx` is threaded exactly as in the source,
where `src_idx` is initialized to 0 (line 233) and never incremented: every
copy reads the source element at `srcIdx` unchanged.  Arguments: remaining
count within the row, running `inner_idx`, `src_idx`, destination buffer;
returns the buffer and the advanced `inner_idx`. -/
def CsrScatterRow (dflt : α) (cols : Int) (values : List α) (inner : List Int)
    (outI : Nat) : Nat → Nat → Nat → (Int → α) → (Int → α) × Nat
  | 0, innerIdx, _, buf => (buf, innerIdx)
  | cnt + 1, innerIdx, srcIdx, buf =>
    let col := inner.getD innerIdx 0
    let dstIdx := ((outI : Int) - 1) * cols + col
    CsrScatterRow dflt cols values inner outI cnt (innerIdx + 1) srcIdx
      (CopyElementAligned dflt buf values dstIdx srcIdx)

/-- Embeds the outer loop of `SparseCsrToDenseTensor` (sparse_utils.cc:233-243):
walks adjacent outer entries (`prev`, `o`), scattering each row's run of inner
entries. -/
def CsrScatterOuter (dflt : α) (cols : Int) (values : List α) (inner : List Int) :
    List Int → Int → Nat → Nat → Nat → (Int → α) → (Int → α)
  | [], _, _, _, _, buf => buf
  | o :: rest, prev, outI, innerIdx, srcIdx, buf =>
    let p := CsrScatterRow dflt cols values inner outI (o - prev).toNat innerIdx srcIdx buf
    CsrScatterOuter dflt cols values inner rest o (outI + 1) p.2 srcIdx p.1

/-- Embeds `SparseCsrToDenseTensor` (sparse_utils.cc:151-255) on the CPU path
for a CSR tensor with dense shape `rows x cols`.  The result buffer is
zero-filled; when `NumValues() > 0` the inner/outer lengths are validated
(`inner = nnz`, `outer = rows + 1`) and the values are scattered row by row. -/
def SparseCsrToDenseTensor (zero : α) (rows cols : Nat) (values : List α)
    (inner outer : List Int) : Except ConvError (List α) :=
  if values.length = 0 then .ok (List.replicate (rows * cols) zero)
  else if inner.length ≠ values.length then .error .MalformedIndices
  else if outer.length ≠ rows + 1 then .error .MalformedIndices
  else
    .ok (ReadBuffer
      (CsrScatterOuter zero (cols : Int) values inner outer.tail (outer.headD 0) 1 0 0
        fun _ => zero)
      (rows * cols))

/-- Embeds the loop of `ScanAndRecordCoo` (sparse_utils.cc:354-376): for each
non-zero element, record the value and push either the linear index or the
decomposed `(row, col)` pair. -/
def ScanAndRecordCooAux (zero : α) (cols : Nat) (linear : Bool) :
    List α → Nat → List Int → List α → List Int × List α
  | [], _, indices, vals => (indices, vals)
  | v :: rest, index, indices, vals =>
    if NotZero zero v then
      let indices2 :=
        if linear then indices ++ [(index : Int)]
        else indices ++ [((index / cols : Nat) : Int), ((index - (index / cols) * cols : Nat) : Int)]
      ScanAndRecordCooAux zero cols linear rest (index + 1) indices2 (vals ++ [v])
    else
      ScanAndRecordCooAux zero cols linear rest (index + 1) indices vals

/-- Embeds `ScanAndRecordCoo` (sparse_utils.cc:354-376); returns
`(indices, values)`. -/
def ScanAndRecordCoo (zero : α) (src : List α) (cols : Nat) (linear : Bool) :
    List Int × List α :=
  ScanAndRecordCooAux zero cols linear src 0 [] []

/-- Embeds `DenseTensorToSparseCoo` (sparse_utils.cc:378-478) on the CPU path.
Rank outside {1,2} is rejected; a 1-D input with 2-D indices requested is
rejected; `cols` is `src_dims[1]` for 2-D and `src_dims[0]` for 1-D (line 410).
Returns `(values, indices)`. -/
def DenseTensorToSparseCoo (zero : α) (dims : List Nat) (data : List α)
    (linearIndex : Bool) : Except ConvError (List α × List Int) :=
  if dims.length < 1 ∨ dims.length > 2 then .error .UnsupportedRank
  else if dims.length = 1 ∧ ¬linearIndex then .error .InvalidIndexMode
  else
    let cols := if dims.length = 2 then dims.getD 1 0 else dims.getD 0 0
    let r := ScanAndRecordCoo zero data cols linearIndex
    .ok (r.2, r.1)

/-- Embeds the linear-index scatter loop of `SparseCooToDenseTensor`
(sparse_utils.cc:324-329).  Each destination index is checked only against the
upper bound `dst_idx < dense_size` (line 327); there is no lower bound check,
and on success the element copy is performed at the (possibly negative) signed
offset. -/
def CooScatterLinear (dflt : α) (denseSize : Int) (values : List α) :
    List Int → Nat → (Int → α) → Except ConvError (Int → α)
  | [], _, buf => .ok buf
  | idx :: rest, srcIdx, buf =>
    if idx < denseSize then
      CooScatterLinear dflt denseSize values rest (srcIdx + 1)
        (CopyElementAligned dflt buf values idx srcIdx)
    else .error .IndexOutOfRange

/-- Comparison point for the bound check of the linear COO scatter: the same
sequence of element copies with no check at all.  `CooScatterLinear` coincides
with it exactly when every index passes the upper-bound test. -/
def CooWriteAll (dflt : α) (values : List α) : List Int → Nat → (Int → α) → (Int → α)
  | [], _, buf => buf
  | idx :: rest, srcIdx, buf =>
    CooWriteAll dflt values rest (srcIdx + 1) (CopyElementAligned dflt buf values idx srcIdx)

/-- Groups a flattened 2-D index sequence into `(row, col)` pairs, as the 2-D
scatter loop reads `indices[2k]` and `indices[2k + 1]`. -/
def PairUp : List Int → List (Int × Int)
  | a :: b :: rest => (a, b) :: PairUp rest
  | _ => []

/-- Embeds the 2-D scatter loop of `SparseCooToDenseTensor`
(sparse_utils.cc:330-338): `dst_idx = row * cols + col`, checked only against
the upper bound. -/
def CooScatter2D (dflt : α) (denseSize cols : Int) (values : List α) :
    List (Int × Int) → Nat → (Int → α) → Except ConvError (Int → α)
  | [], _, buf => .ok buf
  | (r, c) :: rest, srcIdx, buf =>
    let dstIdx := r * cols + c
    if dstIdx < denseSize then
      CooScatter2D dflt denseSize cols values rest (srcIdx + 1)
        (CopyElementAligned dflt buf values dstIdx srcIdx)
    else .error .IndexOutOfRange

/-- Embeds `SparseCooToDenseTensor` (sparse_utils.cc:257-350) on the CPU path.
Rank 1 or 2 is required; with `nnz = 0` a zero-filled dense tensor is returned;
otherwise the index count must equal `nnz` (linear) or `2 * nnz` (2-D pairs)
and the corresponding scatter loop runs. -/
def SparseCooToDenseTensor (zero : α) (dims : List Nat) (values : List α)
    (indices : List Int) : Except ConvError (List α) :=
  if dims.length < 1 ∨ dims.length > 2 then .error .UnsupportedRank
  else if values.length = 0 then .ok (List.replicate dims.prod zero)
  else if ¬(indices.length = values.length ∨ indices.length = 2 * values.length) then
    .error .MalformedIndices
  else
    let denseSize : Int := (dims.prod : Nat)
    if indices.length = values.length then
      (CooScatterLinear zero denseSize values indices 0 fun _ => zero).map
        fun buf => ReadBuffer buf dims.prod
    else
      let cols : Int := (dims.getD 1 0 : Nat)
      (CooScatter2D zero denseSize cols values (PairUp indices) 0 fun _ => zero).map
        fun buf => ReadBuffer buf dims.prod

/-- Index payload of a sparse tensor presented to the interconverters: COO with
1-D (linear) indices, COO with 2-D indices (flattened pairs, the indices tensor
having shape `nnz x 2`), or CSR inner/outer indices. -/
inductive SparseIndices where
  | coo1d (indices : List Int)
  | coo2d (indices : List Int)
  | csr (inner outer : List Int)
deriving DecidableEq

/-- Embeds `Convert2DCooIndicesTo1D` (sparse_utils.cc:507-515): checks that the
input length is even and that the pre-sized output is half as long, then writes
`row * cols + col` for each pair. -/
def Convert2DCooIndicesTo1D (cols : Int) (input : List Int) (outputSize : Nat) :
    Except ConvError (List Int) :=
  if input.length % 2 ≠ 0 then .error .MalformedIndices
  else if outputSize * 2 ≠ input.length then .error .MalformedIndices
  else .ok ((PairUp input).map fun p => p.1 * cols + p.2)

/-- Embeds the inner `c` loop of `ConvertCsrIndicesToCooIndices`
(sparse_utils.cc:761-764): writes `row_offset + inner[inner_ind]` at position
`inner_ind` of the output span.  Arguments: remaining count, running
`inner_ind`, output; returns the output and the advanced `inner_ind`. -/
def CsrToCooRowLoop (inner : List Int) (rowOffset : Int) :
    Nat → Nat → List Int → List Int × Nat
  | 0, innerInd, output => (output, innerInd)
  | cnt + 1, innerInd, output =>
    CsrToCooRowLoop inner rowOffset cnt (innerInd + 1)
      (output.set innerInd (rowOffset + inner.getD innerInd 0))

/-- Embeds the outer loop of `ConvertCsrIndicesToCooIndices`
(sparse_utils.cc:759-765): walks adjacent outer entries with position counter
`i` starting at 1 and `row_offset = (i - 1) * cols`. -/
def CsrToCooOuterLoop (cols : Int) (inner : List Int) :
    List Int → Int → Nat → Nat → List Int → List Int
  | [], _, _, _, output => output
  | o :: rest, prev, i, innerInd, output =>
    let p := CsrToCooRowLoop inner (((i : Int) - 1) * cols) (o - prev).toNat innerInd output
    CsrToCooOuterLoop cols inner rest o (i + 1) p.2 p.1

/-- Embeds `ConvertCsrIndicesToCooIndices` (sparse_utils.cc:749-768).  The
caller passes a pre-sized output span (zero-initialized by the callers in this
file); an empty inner sequence returns it untouched. -/
def ConvertCsrIndicesToCooIndices (cols : Int) (inner outer : List Int)
    (output : List Int) : Except ConvError (List Int) :=
  if inner.isEmpty then .ok output
  else if inner.length ≠ output.length then .error .MalformedIndices
  else .ok (CsrToCooOuterLoop cols inner outer.tail (outer.headD 0) 1 0 output)

/-- Embeds `GetCoo1DIndicesAndMaybeConvert` (sparse_utils.cc:517-554).  For a
CSR matrix input, line 546 of the source reads `Inner()` a second time where
`Outer()` is evidently intended, so the inner span is passed as the outer span;
this definition mirrors that faithfully (`outerSpan := inner`). -/
def GetCoo1DIndicesAndMaybeConvert (rows cols : Nat) (input : SparseIndices) :
    Except ConvError (List Int) :=
  match input with
  | .coo2d ind => Convert2DCooIndicesTo1D (cols : Int) ind (ind.length / 2)
  | .coo1d ind => .ok ind
  | .csr inner _outer =>
    if rows = 1 ∨ cols = 1 then .ok inner
    else
      let outerSpan := inner
      ConvertCsrIndicesToCooIndices (cols : Int) inner outerSpan
        (List.replicate inner.length 0)

/-- Embeds the row catch-up loop shared by the two matrix branches of
`GetCsrIndicesAndMaybeConvert` (sparse_utils.cc:600-622): for each coordinate
pair, push `inner.size()` into the outer sequence once per row crossed
(`for (sz = inner.size(); row < cur_row; ++row) outer.push_back(sz)`), then
push the column into the inner sequence.  The two source loops differ only in
how the `(cur_row, cur_col)` pair is obtained from the raw indices; the pairs
are extracted by the caller here.  Returns `(row, inner, outer)`. -/
def CooPairsToCsrLoop : List (Int × Int) → Int → List Int → List Int →
    Int × List Int × List Int
  | [], row, inner, outer => (row, inner, outer)
  | (r, c) :: rest, row, inner, outer =>
    let outer2 := outer ++ List.replicate (r - row).toNat (inner.length : Int)
    CooPairsToCsrLoop rest (max row r) (inner ++ [c]) outer2

/-- Decomposes a linear COO index as the source does (sparse_utils.cc:603-604,
730-731): `cur_row = idx / cols` with C++ truncated division, and
`cur_col = idx - cur_row * cols`. -/
def LinearToRowCol (cols : Nat) (idx : Int) : Int × Int :=
  (Int.tdiv idx (cols : Int), idx - Int.tdiv idx (cols : Int) * (cols : Int))

/-- Embeds `GetCsrIndicesAndMaybeConvert` (sparse_utils.cc:566-633).  CSR input
is passed through; an empty COO index sequence short-circuits to an empty span;
a vector shape (`rows = 1` or `cols = 1`) reuses the 1-D COO indices with a
synthetic outer `[0, nnz]` (2-D COO indices are rejected for vectors);
otherwise the matrix catch-up loop runs, followed by the final catch-up for the
remaining rows (lines 623-626).  Returns `(inner, outer)`. -/
def GetCsrIndicesAndMaybeConvert (rows cols : Nat) (input : SparseIndices) :
    Except ConvError (List Int × List Int) :=
  match input with
  | .csr inner outer => .ok (inner, outer)
  | .coo1d ind =>
    if ind.isEmpty then .ok ([], [])
    else if rows = 1 ∨ cols = 1 then .ok (ind, [0, (ind.length : Int)])
    else
      let s := CooPairsToCsrLoop (ind.map (LinearToRowCol cols)) 0 [] [0]
      .ok (s.2.1, s.2.2 ++ List.replicate ((rows : Int) - s.1).toNat (s.2.1.length : Int))
  | .coo2d ind =>
    if ind.isEmpty then .ok ([], [])
    else if rows = 1 ∨ cols = 1 then .error .MalformedIndices
    else
      let s := CooPairsToCsrLoop (PairUp ind) 0 [] [0]
      .ok (s.2.1, s.2.2 ++ List.replicate ((rows : Int) - s.1).toNat (s.2.1.length : Int))

/-- Inserts into the model of `std::set<std::tuple<int64_t, size_t>>` kept as a
strictly ascending list under the lexicographic tuple order; returns the new
set and whether the element was newly inserted (`insert(...).second`). -/
def SetInsert : List (Int × Nat) → Int × Nat → List (Int × Nat) × Bool
  | [], x => ([x], true)
  | y :: ys, x =>
    if x.1 < y.1 ∨ (x.1 = y.1 ∧ x.2 < y.2) then (x :: y :: ys, true)
    else if x = y then (y :: ys, false)
    else
      let p := SetInsert ys x
      (y :: p.1, p.2)

/-- Inserts into the model of the transpose's
`std::map<int64_t, std::set<std::tuple<int64_t, size_t>>>` kept as a list of
buckets with strictly ascending keys: `col_to_row[key].insert(x)`, where
indexing default-constructs a missing bucket.  Returns the new map and the
`insert(...).second` flag. -/
def MapInsert : List (Int × List (Int × Nat)) → Int → Int × Nat →
    List (Int × List (Int × Nat)) × Bool
  | [], k, x => ([(k, [x])], true)
  | (k2, b) :: rest, k, x =>
    if k < k2 then ((k, [x]) :: (k2, b) :: rest, true)
    else if k = k2 then
      let p := SetInsert b x
      ((k2, p.1) :: rest, p.2)
    else
      let p := MapInsert rest k x
      ((k2, b) :: p.1, p.2)

/-- Total number of `(secondary, offset)` pairs stored across the buckets of a
transpose conversion map: the number of successful insertions. -/
def MSize (m : List (Int × List (Int × Nat))) : Nat :=
  (m.map fun p => p.2.length).sum

/-- Result of the index transforms that may own converted storage: inner and
outer CSR index sequences plus the value permutation produced by the transpose
(`value_mapping`, empty when no reordering happened). -/
structure CsrIndicesSpan where
  inner : List Int
  outer : List Int
  valueMapping : List Nat
deriving DecidableEq

/-- Embeds the loop of the `output_csr` lambda in `GetCsrIndicesAndTranspose`
(sparse_utils.cc:655-665): iterate the ordered map; catch the outer pointer up
to the current key, then append the bucket's secondary coordinates to the inner
sequence and its offsets to the value mapping.  Returns
`(col, inner, outer, value_mapping)`. -/
def OutputCsrLoop : List (Int × List (Int × Nat)) → Int → List Int → List Int →
    List Nat → Int × List Int × List Int × List Nat
  | [], col, inner, outer, vm => (col, inner, outer, vm)
  | (curCol, bucket) :: rest, col, inner, outer, vm =>
    let outer2 := outer ++ List.replicate (curCol - col).toNat (inner.length : Int)
    OutputCsrLoop rest (max col curCol) (inner ++ bucket.map Prod.fst) outer2
      (vm ++ bucket.map Prod.snd)

/-- Embeds the `output_csr` lambda of `GetCsrIndicesAndTranspose`
(sparse_utils.cc:643-675): runs the map loop from `col = 0` with outer `[0]`,
then pushes the final entries for the remaining columns (lines 666-669).  The
`nnz` argument is used only for `reserve` in the source. -/
def OutputCsr (cols : Int) (colToRow : List (Int × List (Int × Nat))) (_nnz : Nat) :
    CsrIndicesSpan :=
  let s := OutputCsrLoop colToRow 0 [] [0] []
  ⟨s.2.1, s.2.2.1 ++ List.replicate (cols - s.1).toNat (s.2.1.length : Int), s.2.2.2⟩

/-- Embeds the inner `c` loop of the CSR branch of `GetCsrIndicesAndTranspose`
(sparse_utils.cc:696-699).  As in the source, the column is read at `inner[c]`
where `c` restarts from 0 on every row (line 697), not at the running `offset`;
each `(row, offset)` tuple is inserted under that column and a failed insert is
`DuplicateCoordinate`.  Arguments: `c`, remaining count, `offset`, map. -/
def CsrTransposeRowLoop (inner : List Int) (row : Int) :
    Nat → Nat → Nat → List (Int × List (Int × Nat)) →
    Except ConvError (List (Int × List (Int × Nat)) × Nat)
  | _, 0, offset, m => .ok (m, offset)
  | c, cnt + 1, offset, m =>
    let col := inner.getD c 0
    let p := MapInsert m col (row, offset)
    if p.2 then CsrTransposeRowLoop inner row (c + 1) cnt (offset + 1) p.1
    else .error .DuplicateCoordinate

/-- Embeds the outer loop of the CSR branch of `GetCsrIndicesAndTranspose`
(sparse_utils.cc:694-700): row `i - 1` for each adjacent outer pair. -/
def CsrTransposeOuterLoop (inner : List Int) :
    List Int → Int → Int → Nat → List (Int × List (Int × Nat)) →
    Except ConvError (List (Int × List (Int × Nat)) × Nat)
  | [], _, _, offset, m => .ok (m, offset)
  | o :: rest, prev, row, offset, m =>
    match CsrTransposeRowLoop inner row 0 (o - prev).toNat offset m with
    | .ok p => CsrTransposeOuterLoop inner rest o (row + 1) p.2 p.1
    | .error e => .error e

/-- Embeds the COO insertion loops of `GetCsrIndicesAndTranspose`
(sparse_utils.cc:727-741): insert `(cur_row, offset++)` keyed by `cur_col`; a
failed insert is `DuplicateCoordinate`. -/
def CooTransposeLoop : List (Int × Int) → Nat → List (Int × List (Int × Nat)) →
    Except ConvError (List (Int × List (Int × Nat)) × Nat)
  | [], offset, m => .ok (m, offset)
  | (r, c) :: rest, offset, m =>
    let p := MapInsert m c (r, offset)
    if p.2 then CooTransposeLoop rest (offset + 1) p.1
    else .error .DuplicateCoordinate

/-- Embeds `GetCsrIndicesAndTranspose` (sparse_utils.cc:635-747): empty inputs
short-circuit to an empty span; vector shapes are exempt from transposition
(CSR aliases both spans, 1-D COO gets a synthetic outer, 2-D COO is rejected);
matrix inputs are regrouped by column through the ordered map and emitted by
`output_csr`. -/
def GetCsrIndicesAndTranspose (rows cols : Nat) (input : SparseIndices) :
    Except ConvError CsrIndicesSpan :=
  match input with
  | .csr inner outer =>
    if inner.isEmpty then .ok ⟨[], [], []⟩
    else if rows = 1 ∨ cols = 1 then .ok ⟨inner, outer, []⟩
    else
      match CsrTransposeOuterLoop inner outer.tail (outer.headD 0) 0 0 [] with
      | .ok p => .ok (OutputCsr (cols : Int) p.1 inner.length)
      | .error e => .error e
  | .coo1d ind =>
    if ind.isEmpty then .ok ⟨[], [], []⟩
    else if rows = 1 ∨ cols = 1 then .ok ⟨ind, [0, (ind.length : Int)], []⟩
    else
      match CooTransposeLoop (ind.map (LinearToRowCol cols)) 0 [] with
      | .ok p => .ok (OutputCsr (cols : Int) p.1 ind.length)
      | .error e => .error e
  | .coo2d ind =>
    if ind.isEmpty then .ok ⟨[], [], []⟩
    else if rows = 1 ∨ cols = 1 then .error .MalformedIndices
    else
      match CooTransposeLoop (PairUp ind) 0 [] with
      | .ok p => .ok (OutputCsr (cols : Int) p.1 (ind.length / 2))
      | .error e => .error e

/-- Embeds `ScanForSparseMatches` (sparse_utils.cc:770-786) with the callback
reified as the emitted list of `(a position, b position)` pairs: advance the
pointer with the smaller current value, and on equality report both positions
and advance both. -/
def ScanMatchesAux : List Int → List Int → Nat → Nat → List (Nat × Nat)
  | av :: arest, bv :: brest, aInd, bInd =>
    if av = bv then (aInd, bInd) :: ScanMatchesAux arest brest (aInd + 1) (bInd + 1)
    else if av < bv then ScanMatchesAux arest (bv :: brest) (aInd + 1) bInd
    else ScanMatchesAux (av :: arest) brest aInd (bInd + 1)
  | _, _, _, _ => []

/-- Embeds `ScanForSparseMatches` (sparse_utils.cc:770-786), starting both
positions at 0. -/
def ScanForSparseMatches (a b : List Int) : List (Nat × Nat) :=
  ScanMatchesAux a b 0 0

/-- Spec comparison for the index matcher: the brute-force intersection
computed by nested iteration over all position pairs with `A[i] == B[j]`. -/
def BruteForceMatches (a b : List Int) : List (Nat × Nat) :=
  (List.range a.length).flatMap fun i =>
    (List.range b.length).filterMap fun j =>
      if a.getD i 0 = b.getD j 0 then some (i, j) else none

theorem getD_mem_of_lt (l : List Int) (j : Nat) (hj : j < l.length) : l.getD j 0 ∈ l := by
  rw [List.getD_eq_getElem l 0 hj]
  exact List.getElem_mem hj

theorem head_lt_getD_of_pairwise (x : Int) (l : List Int)
    (h : (x :: l).Pairwise (· < ·)) (j : Nat) (hj : j < l.length) :
    x < l.getD j 0 :=
  (List.pairwise_cons.mp h).1 _ (getD_mem_of_lt l j hj)

theorem head_le_getD_of_pairwise (x : Int) (l : List Int)
    (h : (x :: l).Pairwise (· < ·)) (j : Nat) (hj : j < (x :: l).length) :
    x ≤ (x :: l).getD j 0 := by
  cases j with
  | zero => simp
  | succ j =>
    simp only [List.getD_cons_succ]
    exact le_of_lt (head_lt_getD_of_pairwise x l h j (by simpa using hj))

/-- Position-pair characterization of the two-pointer merge on strictly
ascending inputs: a pair is emitted exactly when the two sequences agree at the
corresponding (offset) positions. -/
theorem scanMatchesAux_mem :
    ∀ (a b : List Int) (ai bi : Nat), a.Pairwise (· < ·) → b.Pairwise (· < ·) →
    ∀ p : Nat × Nat,
      (p ∈ ScanMatchesAux a b ai bi ↔
        ∃ i j, i < a.length ∧ j < b.length ∧ a.getD i 0 = b.getD j 0 ∧ p = (ai + i, bi + j)) := by
  intro a b ai bi
  induction a, b, ai, bi using ScanMatchesAux.induct with
  | case1 atail x btail ai bi ih =>
    intro ha hb p
    rw [show ScanMatchesAux (x :: atail) (x :: btail) ai bi =
        (ai, bi) :: ScanMatchesAux atail btail (ai + 1) (bi + 1) from by
      simp [ScanMatchesAux]]
    constructor
    · intro hp
      rcases List.mem_cons.mp hp with rfl | hp2
      · exact ⟨0, 0, by simp, by simp, by simp, by simp⟩
      · obtain ⟨i, j, hi, hj, he, rfl⟩ :=
          (ih (List.Pairwise.of_cons ha) (List.Pairwise.of_cons hb) _).mp hp2
        refine ⟨i + 1, j + 1, by simpa using hi, by simpa using hj, by simpa using he, ?_⟩
        congr 1 <;> omega
    · rintro ⟨i, j, hi, hj, he, rfl⟩
      cases i with
      | zero =>
        cases j with
        | zero => simp
        | succ j =>
          exact absurd he (by
            simp only [List.getD_cons_zero, List.getD_cons_succ]
            exact ne_of_lt (head_lt_getD_of_pairwise x btail hb j (by simpa using hj)))
      | succ i =>
        cases j with
        | zero =>
          exact absurd he.symm (by
            simp only [List.getD_cons_zero, List.getD_cons_succ]
            exact ne_of_lt (head_lt_getD_of_pairwise x atail ha i (by simpa using hi)))
        | succ j =>
          have h1 : (ai + (i + 1), bi + (j + 1)) = (ai + 1 + i, bi + 1 + j) := by
            congr 1 <;> omega
          rw [h1]
          exact List.mem_cons_of_mem _
            ((ih (List.Pairwise.of_cons ha) (List.Pairwise.of_cons hb) _).mpr
              ⟨i, j, by simpa using hi, by simpa using hj, by simpa using he, rfl⟩)
  | case2 av arest bv brest ai bi hne hlt ih =>
    intro ha hb p
    rw [show ScanMatchesAux (av :: arest) (bv :: brest) ai bi =
        ScanMatchesAux arest (bv :: brest) (ai + 1) bi from by
      simp [ScanMatchesAux, hne, hlt]]
    rw [ih (List.Pairwise.of_cons ha) hb p]
    constructor
    · rintro ⟨i, j, hi, hj, he, rfl⟩
      refine ⟨i + 1, j, by simpa using hi, hj, by simpa using he, ?_⟩
      congr 1 <;> omega
    · rintro ⟨i, j, hi, hj, he, rfl⟩
      cases i with
      | zero =>
        have hav : av < (bv :: brest).getD j 0 :=
          lt_of_lt_of_le hlt (head_le_getD_of_pairwise bv brest hb j hj)
        exact absurd he (by simpa using ne_of_lt hav)
      | succ i =>
        refine ⟨i, j, by simpa using hi, hj, by simpa using he, ?_⟩
        congr 1 <;> omega
  | case3 av arest bv brest ai bi hne hnlt ih =>
    intro ha hb p
    have hgt : bv < av := lt_of_le_of_ne (not_lt.mp hnlt) (Ne.symm hne)
    rw [show ScanMatchesAux (av :: arest) (bv :: brest) ai bi =
        ScanMatchesAux (av :: arest) brest ai (bi + 1) from by
      simp [ScanMatchesAux, hne, hnlt]]
    rw [ih ha (List.Pairwise.of_cons hb) p]
    constructor
    · rintro ⟨i, j, hi, hj, he, rfl⟩
      refine ⟨i, j + 1, hi, by simpa using hj, by simpa using he, ?_⟩
      congr 1 <;> omega
    · rintro ⟨i, j, hi, hj, he, rfl⟩
      cases j with
      | zero =>
        have hbv : bv < (av :: arest).getD i 0 :=
          lt_of_lt_of_le hgt (head_le_getD_of_pairwise av arest ha i hi)
        exact absurd he (by simpa using (ne_of_lt hbv).symm)
      | succ j =>
        refine ⟨i, j, hi, by simpa using hj, by simpa using he, ?_⟩
        congr 1 <;> omega
  | case4 a b ai bi hnc =>
    intro ha hb p
    match a, b with
    | [], b => simp [ScanMatchesAux]
    | av :: arest, [] => simp [ScanMatchesAux]
    | av :: arest, bv :: brest => exact (hnc av arest bv brest rfl rfl).elim

/-- Position-pair characterization of the brute-force nested iteration. -/
theorem bruteForceMatches_mem (a b : List Int) (p : Nat × Nat) :
    p ∈ BruteForceMatches a b ↔
      p.1 < a.length ∧ p.2 < b.length ∧ a.getD p.1 0 = b.getD p.2 0 := by
  obtain ⟨i, j⟩ := p
  simp only [BruteForceMatches, List.mem_flatMap, List.mem_filterMap, List.mem_range]
  constructor
  · rintro ⟨i2, hi2, j2, hj2, hs⟩
    by_cases he : a.getD i2 0 = b.getD j2 0
    · rw [if_pos he] at hs
      obtain ⟨rfl, rfl⟩ := by simpa using hs
      exact ⟨hi2, hj2, he⟩
    · rw [if_neg he] at hs
      exact absurd hs (by simp)
  · rintro ⟨hi, hj, he⟩
    exact ⟨i, hi, j, hj, by rw [if_pos he]⟩

theorem pairwise_concat_le (l : List Int) (v : Int) (hpw : l.Pairwise (· ≤ ·))
    (hle : ∀ x ∈ l, x ≤ v) : (l ++ [v]).Pairwise (· ≤ ·) :=
  List.pairwise_append.mpr ⟨hpw, by simp, fun x hx y hy => by
    simp only [List.mem_singleton] at hy
    subst hy
    exact hle x hx⟩

theorem pairwise_append_replicate (l : List Int) (v : Int) (n : Nat)
    (hpw : l.Pairwise (· ≤ ·)) (hle : ∀ x ∈ l, x ≤ v) :
    (l ++ List.replicate n v).Pairwise (· ≤ ·) :=
  List.pairwise_append.mpr ⟨hpw, (List.pairwise_replicate).mpr (Or.inr le_rfl),
    fun x hx y hy => by
      rw [List.eq_of_mem_replicate hy]
      exact hle x hx⟩

theorem getLast_append_replicate (l : List Int) (v : Int) (n : Nat) (hn : 0 < n) :
    (l ++ List.replicate n v).getLast? = some v := by
  obtain ⟨k, rfl⟩ : ∃ k, n = k + 1 := ⟨n - 1, by omega⟩
  rw [List.replicate_succ', ← List.append_assoc, List.getLast?_concat]

/-- Invariant of the `ScanAndRecordCsr` loop: entered with `row` equal to the
row of the previously scanned element and a well-formed outer prefix of length
`row + 1`, the loop returns an outer sequence reaching exactly the last scanned
row, non-decreasing, starting at 0 and ending at the final inner count. -/
theorem scanAndRecordCsrAux_outer (zero : α) (cols : Nat) :
    ∀ (src : List α) (row index : Nat) (inner outer : List Int) (vals : List α),
    row = (index - 1) / cols →
    outer.length = row + 1 →
    outer.Pairwise (· ≤ ·) →
    (∃ t, outer = 0 :: t) →
    (∀ x ∈ outer, x ≤ (inner.length : Int)) →
    (ScanAndRecordCsrAux zero cols src row index inner outer vals).2.1.length =
        (index + src.length - 1) / cols + 2 ∧
      (ScanAndRecordCsrAux zero cols src row index inner outer vals).2.1.Pairwise (· ≤ ·) ∧
      (∃ t, (ScanAndRecordCsrAux zero cols src row index inner outer vals).2.1 = 0 :: t) ∧
      (ScanAndRecordCsrAux zero cols src row index inner outer vals).2.1.getLast? =
        some ((ScanAndRecordCsrAux zero cols src row index inner outer vals).1.length : Int) := by
  intro src
  induction src with
  | nil =>
    intro row index inner outer vals hrow hlen hpw hshape hle
    obtain ⟨t, rfl⟩ := hshape
    simp only [ScanAndRecordCsrAux, List.length_nil, Nat.add_zero]
    refine ⟨?_, pairwise_concat_le _ _ hpw hle, ⟨t ++ [(inner.length : Int)], by simp⟩, ?_⟩
    · simp only [List.length_append, List.length_cons, List.length_nil] at hlen ⊢
      omega
    · rw [show ((0 : Int) :: t ++ [(inner.length : Int)]) =
          ((0 : Int) :: t) ++ [(inner.length : Int)] from by simp, List.getLast?_concat]
  | cons v rest ih =>
    intro row index inner outer vals hrow hlen hpw hshape hle
    have hnum : index + 1 + rest.length - 1 = index + (v :: rest).length - 1 := by
      simp only [List.length_cons]
      omega
    by_cases hrw : index / cols = row
    · have hs : ScanAndRecordCsrAux zero cols (v :: rest) row index inner outer vals =
          if NotZero zero v then
            ScanAndRecordCsrAux zero cols rest row (index + 1)
              (inner ++ [((index - (index / cols) * cols : Nat) : Int)]) outer (vals ++ [v])
          else
            ScanAndRecordCsrAux zero cols rest row (index + 1) inner outer vals := by
        simp only [ScanAndRecordCsrAux, hrw, ne_eq, not_true_eq_false, if_false]
      have hrow2 : row = (index + 1 - 1) / cols := by
        simpa using hrw.symm
      by_cases hnz : NotZero zero v = true
      · rw [hs, if_pos hnz]
        have hmain := ih row (index + 1)
          (inner ++ [((index - (index / cols) * cols : Nat) : Int)]) outer (vals ++ [v])
          hrow2 hlen hpw hshape
          (fun x hx => le_trans (hle x hx) (by simp))
        refine ⟨?_, hmain.2.1, hmain.2.2.1, hmain.2.2.2⟩
        rw [hmain.1, hnum]
      · rw [hs, if_neg hnz]
        have hmain := ih row (index + 1) inner outer vals hrow2 hlen hpw hshape hle
        refine ⟨?_, hmain.2.1, hmain.2.2.1, hmain.2.2.2⟩
        rw [hmain.1, hnum]
    · have hs : ScanAndRecordCsrAux zero cols (v :: rest) row index inner outer vals =
          if NotZero zero v then
            ScanAndRecordCsrAux zero cols rest (index / cols) (index + 1)
              (inner ++ [((index - (index / cols) * cols : Nat) : Int)])
              (outer ++ [(inner.length : Int)]) (vals ++ [v])
          else
            ScanAndRecordCsrAux zero cols rest (index / cols) (index + 1) inner
              (outer ++ [(inner.length : Int)]) vals := by
        simp only [ScanAndRecordCsrAux, hrw, ne_eq, not_false_eq_true, if_true]
      have hpos : 0 < index := by
        rcases Nat.eq_zero_or_pos index with rfl | h
        · exact absurd (by simpa using hrow.symm) hrw
        · exact h
      have hsucc : index / cols = row + 1 := by
        have hd := Nat.succ_div (index - 1) cols
        rw [show index - 1 + 1 = index from by omega] at hd
        rw [hrow] at hrw ⊢
        split_ifs at hd with hdv
        · omega
        · omega
      have hrow2 : index / cols = (index + 1 - 1) / cols := by simp
      have hlen2 : (outer ++ [(inner.length : Int)]).length = index / cols + 1 := by
        simp only [List.length_append, List.length_cons, List.length_nil]
        omega
      have hshape2 : ∃ t, outer ++ [(inner.length : Int)] = 0 :: t := by
        obtain ⟨t, rfl⟩ := hshape
        exact ⟨t ++ [(inner.length : Int)], by simp⟩
      have hpw2 := pairwise_concat_le _ _ hpw hle
      by_cases hnz : NotZero zero v = true
      · rw [hs, if_pos hnz]
        have hle2 : ∀ x ∈ outer ++ [(inner.length : Int)],
            x ≤ ((inner ++ [((index - (index / cols) * cols : Nat) : Int)]).length : Int) := by
          intro x hx
          rcases List.mem_append.mp hx with h | h
          · exact le_trans (hle x h) (by simp)
          · simp only [List.mem_singleton] at h
            subst h
            simp
        have hmain := ih (index / cols) (index + 1)
          (inner ++ [((index - (index / cols) * cols : Nat) : Int)])
          (outer ++ [(inner.length : Int)]) (vals ++ [v])
          hrow2 hlen2 hpw2 hshape2 hle2
        refine ⟨?_, hmain.2.1, hmain.2.2.1, hmain.2.2.2⟩
        rw [hmain.1, hnum]
      · rw [hs, if_neg hnz]
        have hmain := ih (index / cols) (index + 1) inner
          (outer ++ [(inner.length : Int)]) vals
          hrow2 hlen2 hpw2 hshape2
          (fun x hx => by
            rcases List.mem_append.mp hx with h | h
            · exact hle x h
            · simp only [List.mem_singleton] at h
              subst h
              exact le_refl _)
        refine ⟨?_, hmain.2.1, hmain.2.2.1, hmain.2.2.2⟩
        rw [hmain.1, hnum]

theorem mul_sub_one_div (rows cols : Nat) (hr : 0 < rows) (hc : 0 < cols) :
    (rows * cols - 1) / cols = rows - 1 := by
  obtain ⟨r, rfl⟩ : ∃ r, rows = r + 1 := ⟨rows - 1, by omega⟩
  have h1 : (r + 1) * cols - 1 = cols - 1 + r * cols := by
    have ha := Nat.add_mul r 1 cols
    have hb := Nat.one_mul cols
    omega
  rw [h1, Nat.add_mul_div_right _ _ hc, Nat.div_eq_of_lt (by omega)]
  omega

/-- Invariant of the COO-to-CSR row catch-up loop: with in-range row
coordinates, the outer sequence tracks the largest row seen and stays a
non-decreasing, zero-started prefix бounded by the inner count. -/
theorem cooPairsToCsrLoop_spec (rows : Int) :
    ∀ (pairs : List (Int × Int)) (row : Int) (inner outer : List Int),
    0 ≤ row → row < rows →
    (∀ p ∈ pairs, p.1 < rows) →
    outer.length = row.toNat + 1 →
    outer.Pairwise (· ≤ ·) →
    (∃ t, outer = 0 :: t) →
    (∀ x ∈ outer, x ≤ (inner.length : Int)) →
    0 ≤ (CooPairsToCsrLoop pairs row inner outer).1 ∧
      (CooPairsToCsrLoop pairs row inner outer).1 < rows ∧
      (CooPairsToCsrLoop pairs row inner outer).2.2.length =
        (CooPairsToCsrLoop pairs row inner outer).1.toNat + 1 ∧
      (CooPairsToCsrLoop pairs row inner outer).2.2.Pairwise (· ≤ ·) ∧
      (∃ t, (CooPairsToCsrLoop pairs row inner outer).2.2 = 0 :: t) ∧
      (∀ x ∈ (CooPairsToCsrLoop pairs row inner outer).2.2,
        x ≤ ((CooPairsToCsrLoop pairs row inner outer).2.1.length : Int)) ∧
      (CooPairsToCsrLoop pairs row inner outer).2.1.length =
        inner.length + pairs.length := by
  intro pairs
  induction pairs with
  | nil =>
    intro row inner outer h0 hlt hp hlen hpw hshape hle
    simp only [CooPairsToCsrLoop]
    exact ⟨h0, hlt, hlen, hpw, hshape, hle, by simp⟩
  | cons p rest ih =>
    intro row inner outer h0 hlt hp hlen hpw hshape hle
    obtain ⟨r, c⟩ := p
    have hr : r < rows := by simpa using hp (r, c) (List.mem_cons_self _ _)
    simp only [CooPairsToCsrLoop]
    have h0i : 0 ≤ max row r := le_trans h0 (le_max_left _ _)
    have hlti : max row r < rows := max_lt hlt hr
    have hleni : (outer ++ List.replicate (r - row).toNat (inner.length : Int)).length =
        (max row r).toNat + 1 := by
      simp only [List.length_append, List.length_replicate]
      omega
    have hpwi := pairwise_append_replicate _ _ (r - row).toNat hpw hle
    have hshapei : ∃ t,
        outer ++ List.replicate (r - row).toNat (inner.length : Int) = 0 :: t := by
      obtain ⟨t, rfl⟩ := hshape
      exact ⟨t ++ List.replicate (r - row).toNat (inner.length : Int), by simp⟩
    have hlei : ∀ x ∈ outer ++ List.replicate (r - row).toNat (inner.length : Int),
        x ≤ ((inner ++ [c]).length : Int) := by
      intro x hx
      rcases List.mem_append.mp hx with h | h
      · exact le_trans (hle x h) (by simp)
      · rw [List.eq_of_mem_replicate h]
        simp
    have hmain := ih (max row r) (inner ++ [c]) _ h0i hlti
      (fun q hq => hp q (List.mem_cons_of_mem _ hq)) hleni hpwi hshapei hlei
    refine ⟨hmain.1, hmain.2.1, hmain.2.2.1, hmain.2.2.2.1, hmain.2.2.2.2.1,
      hmain.2.2.2.2.2.1, ?_⟩
    rw [hmain.2.2.2.2.2.2]
    simp only [List.length_append, List.length_cons, List.length_nil]
    omega

theorem setInsert_length : ∀ (b : List (Int × Nat)) (x : Int × Nat),
    (SetInsert b x).1.length = b.length + (if (SetInsert b x).2 then 1 else 0) := by
  intro b
  induction b with
  | nil => intro x; simp [SetInsert]
  | cons y ys ih =>
    intro x
    simp only [SetInsert]
    by_cases h1 : x.1 < y.1 ∨ (x.1 = y.1 ∧ x.2 < y.2)
    · simp [h1]
    · by_cases h2 : x = y
      · simp [h1, h2]
      · simp only [h1, h2, if_false, if_neg, List.length_cons]
        rw [ih x]
        by_cases h3 : (SetInsert ys x).2
        · simp [h3]
        · simp [h3]

/-- Inserting into the transpose conversion map preserves strictly ascending
bucket keys, adds at most the new key, and grows the stored-pair count exactly
when the insert reports success. -/
theorem mapInsert_spec : ∀ (m : List (Int × List (Int × Nat))) (k : Int) (x : Int × Nat),
    (m.map Prod.fst).Pairwise (· < ·) →
    (((MapInsert m k x).1.map Prod.fst).Pairwise (· < ·) ∧
      (∀ k2 ∈ (MapInsert m k x).1.map Prod.fst, k2 = k ∨ k2 ∈ m.map Prod.fst) ∧
      MSize (MapInsert m k x).1 = MSize m + (if (MapInsert m k x).2 then 1 else 0)) := by
  intro m
  induction m with
  | nil =>
    intro k x _
    refine ⟨by simp [MapInsert], by simp [MapInsert], by simp [MapInsert, MSize]⟩
  | cons e rest ih =>
    intro k x hpw
    obtain ⟨k2, b⟩ := e
    simp only [List.map_cons] at hpw
    by_cases h1 : k < k2
    · simp only [MapInsert, if_pos h1]
      refine ⟨?_, ?_, ?_⟩
      · simp only [List.map_cons]
        exact List.pairwise_cons.mpr ⟨fun y hy => by
          rcases List.mem_cons.mp hy with rfl | hy2
          · exact h1
          · exact lt_trans h1 ((List.pairwise_cons.mp hpw).1 y hy2), hpw⟩
      · intro k3 hk3
        rcases List.mem_cons.mp hk3 with rfl | h
        · exact Or.inl rfl
        · exact Or.inr h
      · simp [MSize]
        omega
    · by_cases h2 : k = k2
      · simp only [MapInsert, if_neg h1, if_pos h2]
        refine ⟨by simpa using hpw, by intro k3 hk3; exact Or.inr (by simpa using hk3), ?_⟩
        simp only [MSize, List.map_cons, List.sum_cons]
        rw [setInsert_length b x]
        omega
      · simp only [MapInsert, if_neg h1, if_neg h2]
        have hk2k : k2 < k := by omega
        have hmain := ih k x (List.Pairwise.of_cons hpw)
        refine ⟨?_, ?_, ?_⟩
        · simp only [List.map_cons]
          refine List.pairwise_cons.mpr ⟨fun y hy => ?_, hmain.1⟩
          rcases hmain.2.1 y hy with rfl | h
          · exact hk2k
          · exact (List.pairwise_cons.mp hpw).1 y h
        · intro k3 hk3
          rw [List.map_cons] at hk3
          rcases List.mem_cons.mp hk3 with rfl | h
          · exact Or.inr (by simp)
          · rcases hmain.2.1 k3 h with rfl | h4
            · exact Or.inl rfl
            · exact Or.inr (by simp [h4])
        · simp only [MSize, List.map_cons, List.sum_cons] at hmain ⊢
          omega

/-- A successful run of the transpose's COO insertion loop with in-range column
coordinates yields a map with strictly ascending in-range keys holding one pair
per input coordinate. -/
theorem cooTransposeLoop_spec (cols : Int) :
    ∀ (pairs : List (Int × Int)) (offset : Nat) (m : List (Int × List (Int × Nat))),
    (m.map Prod.fst).Pairwise (· < ·) →
    (∀ k ∈ m.map Prod.fst, 0 ≤ k ∧ k < cols) →
    (∀ p ∈ pairs, 0 ≤ p.2 ∧ p.2 < cols) →
    ∀ m2 off2, CooTransposeLoop pairs offset m = .ok (m2, off2) →
    ((m2.map Prod.fst).Pairwise (· < ·) ∧
      (∀ k ∈ m2.map Prod.fst, 0 ≤ k ∧ k < cols) ∧
      MSize m2 = MSize m + pairs.length) := by
  intro pairs
  induction pairs with
  | nil =>
    intro offset m hpw hrange _ m2 off2 heq
    obtain ⟨rfl, rfl⟩ : m = m2 ∧ offset = off2 := by
      simpa [CooTransposeLoop] using heq
    exact ⟨hpw, hrange, by simp⟩
  | cons p rest ih =>
    intro offset m hpw hrange hpr m2 off2 heq
    obtain ⟨r, c⟩ := p
    simp only [CooTransposeLoop] at heq
    by_cases hflag : (MapInsert m c (r, offset)).2
    · rw [if_pos hflag] at heq
      have hmi := mapInsert_spec m c (r, offset) hpw
      have hrange2 : ∀ k ∈ (MapInsert m c (r, offset)).1.map Prod.fst, 0 ≤ k ∧ k < cols := by
        intro k hk
        rcases hmi.2.1 k hk with rfl | h
        · exact hpr (r, k) (List.mem_cons_self _ _)
        · exact hrange k h
      have hmain := ih (offset + 1) (MapInsert m c (r, offset)).1 hmi.1 hrange2
        (fun q hq => hpr q (List.mem_cons_of_mem _ hq)) m2 off2 heq
      refine ⟨hmain.1, hmain.2.1, ?_⟩
      rw [hmain.2.2, hmi.2.2, if_pos hflag]
      simp only [List.length_cons]
      omega
    · rw [if_neg hflag] at heq
      exact absurd heq (by simp)

/-- Invariant of the transpose's `output_csr` loop over the ordered conversion
map: the emitted outer sequence tracks the largest key and stays a
non-decreasing, zero-started prefix bounded by the inner count, which grows by
the bucket sizes. -/
theorem outputCsrLoop_spec (cols : Int) :
    ∀ (m : List (Int × List (Int × Nat))) (col : Int) (inner outer : List Int) (vm : List Nat),
    0 ≤ col → col < cols →
    ((m.map Prod.fst).Pairwise (· < ·)) →
    (∀ k ∈ m.map Prod.fst, col ≤ k ∧ k < cols) →
    outer.length = col.toNat + 1 →
    outer.Pairwise (· ≤ ·) →
    (∃ t, outer = 0 :: t) →
    (∀ x ∈ outer, x ≤ (inner.length : Int)) →
    0 ≤ (OutputCsrLoop m col inner outer vm).1 ∧
      (OutputCsrLoop m col inner outer vm).1 < cols ∧
      (OutputCsrLoop m col inner outer vm).2.2.1.length =
        (OutputCsrLoop m col inner outer vm).1.toNat + 1 ∧
      (OutputCsrLoop m col inner outer vm).2.2.1.Pairwise (· ≤ ·) ∧
      (∃ t, (OutputCsrLoop m col inner outer vm).2.2.1 = 0 :: t) ∧
      (∀ x ∈ (OutputCsrLoop m col inner outer vm).2.2.1,
        x ≤ ((OutputCsrLoop m col inner outer vm).2.1.length : Int)) ∧
      (OutputCsrLoop m col inner outer vm).2.1.length = inner.length + MSize m := by
  intro m
  induction m with
  | nil =>
    intro col inner outer vm h0 hlt _ _ hlen hpw hshape hle
    simp only [OutputCsrLoop]
    exact ⟨h0, hlt, hlen, hpw, hshape, hle, by simp [MSize]⟩
  | cons e rest ih =>
    intro col inner outer vm h0 hlt hkeys hkrange hlen hpw hshape hle
    obtain ⟨curCol, bucket⟩ := e
    have hcc : col ≤ curCol ∧ curCol < cols := by
      simpa using hkrange curCol (by simp)
    simp only [OutputCsrLoop]
    have h0i : 0 ≤ max col curCol := le_trans h0 (le_max_left _ _)
    have hlti : max col curCol < cols := max_lt hlt hcc.2
    have hkeysi : ((rest.map Prod.fst).Pairwise (· < ·)) := by
      simpa using List.Pairwise.of_cons (by simpa using hkeys)
    have hkrangei : ∀ k ∈ rest.map Prod.fst, max col curCol ≤ k ∧ k < cols := by
      intro k hk
      have hlt2 : curCol < k := by
        have := (List.pairwise_cons.mp (show ((curCol :: rest.map Prod.fst)).Pairwise (· < ·)
          from by simpa using hkeys)).1
        exact this k hk
      have := hkrange k (by simp [hk])
      have hmax : max col curCol = curCol := max_eq_right hcc.1
      exact ⟨by rw [hmax]; exact le_of_lt hlt2, this.2⟩
    have hleni : (outer ++ List.replicate (curCol - col).toNat (inner.length : Int)).length =
        (max col curCol).toNat + 1 := by
      simp only [List.length_append, List.length_replicate]
      omega
    have hpwi := pairwise_append_replicate _ _ (curCol - col).toNat hpw hle
    have hshapei : ∃ t,
        outer ++ List.replicate (curCol - col).toNat (inner.length : Int) = 0 :: t := by
      obtain ⟨t, rfl⟩ := hshape
      exact ⟨t ++ List.replicate (curCol - col).toNat (inner.length : Int), by simp⟩
    have hlei : ∀ x ∈ outer ++ List.replicate (curCol - col).toNat (inner.length : Int),
        x ≤ ((inner ++ bucket.map Prod.fst).length : Int) := by
      intro x hx
      rcases List.mem_append.mp hx with h | h
      · exact le_trans (hle x h) (by simp)
      · rw [List.eq_of_mem_replicate h]
        simp
    have hmain := ih (max col curCol) (inner ++ bucket.map Prod.fst) _ (vm ++ bucket.map Prod.snd)
      h0i hlti hkeysi hkrangei hleni hpwi hshapei hlei
    refine ⟨hmain.1, hmain.2.1, hmain.2.2.1, hmain.2.2.2.1, hmain.2.2.2.2.1,
      hmain.2.2.2.2.2.1, ?_⟩
    rw [hmain.2.2.2.2.2.2]
    simp only [List.length_append, List.length_map, MSize, List.map_cons, List.sum_cons]
    omega

/-- For a linear index in `[0, rows * cols)` and positive `cols`, the source's
row/column decomposition lands in `[0, rows) x [0, cols)`. -/
theorem linearToRowCol_bounds (rows cols : Nat) (hc : 0 < cols) (idx : Int)
    (h0 : 0 ≤ idx) (hlt : idx < (rows : Int) * (cols : Int)) :
    0 ≤ (LinearToRowCol cols idx).1 ∧ (LinearToRowCol cols idx).1 < (rows : Int) ∧
    0 ≤ (LinearToRowCol cols idx).2 ∧ (LinearToRowCol cols idx).2 < (cols : Int) := by
  have hcpos : (0 : Int) < (cols : Int) := by exact_mod_cast hc
  simp only [LinearToRowCol]
  rw [Int.tdiv_eq_ediv h0 (le_of_lt hcpos)]
  have hmod : idx - idx / (cols : Int) * (cols : Int) = idx % (cols : Int) := by
    rw [Int.emod_def]
    ring
  refine ⟨Int.ediv_nonneg h0 (le_of_lt hcpos), ?_, ?_, ?_⟩
  · exact (Int.ediv_lt_iff_lt_mul hcpos).mpr hlt
  · rw [hmod]
    exact Int.emod_nonneg idx (by omega)
  · rw [hmod]
    exact Int.emod_lt_of_pos idx hcpos

/-- C1: the claim states that `ToDense(ToCSR(D)) = D` for every supported dense
tensor `D`.  The code violates it: in `SparseCsrToDenseTensor` the source
position `src_idx` is initialized to 0 and never incremented
(sparse_utils.cc:233,241), so every stored entry is reconstructed from
`values[0]`.  At the specification's own concrete scenario `D = [[0,5],[3,0]]`,
the CSR conversion is `values [5,3], inner [1,0], outer [0,1,2]`, but the
reconstruction yields `[[0,5],[5,0]] ≠ D`. -/
theorem claim_c1_csr_roundtrip_not_identity :
    DenseTensorToSparseCsr (0 : Int) [2, 2] [0, 5, 3, 0] = .ok ([5, 3], [1, 0], [0, 1, 2]) ∧
    SparseCsrToDenseTensor (0 : Int) 2 2 [5, 3] [1, 0] [0, 1, 2] = .ok [0, 5, 5, 0] ∧
    ([0, 5, 5, 0] : List Int) ≠ [0, 5, 3, 0] :=
  ⟨by decide, by decide, by decide⟩

/-- C3 counterexample: the claim states that the all-zero 3x3 dense tensor
converts to CSR with outer pointers `[0,0,0,0]`.  In the code the outer size is
truncated to 0 whenever `nnz = 0` (sparse_utils.cc:128), so the produced outer
sequence is `[]`, not `[0,0,0,0]`. -/
theorem claim_c3_zero_matrix_outer_empty :
    DenseTensorToSparseCsr (0 : Int) [3, 3] (List.replicate 9 0) = .ok ([], [], []) ∧
    ([] : List Int) ≠ [0, 0, 0, 0] :=
  ⟨by decide, by decide⟩

/-- C3 amended: an all-zero 3x3 dense tensor converts to CSR with values `[]`,
inner `[]` and an *empty* outer sequence (length 0, not `rows + 1`), and that
CSR tensor reconstructs to an all-zero 3x3 dense tensor. -/
theorem claim_c3_zero_matrix_roundtrip :
    DenseTensorToSparseCsr (0 : Int) [3, 3] (List.replicate 9 0) = .ok ([], [], []) ∧
    SparseCsrToDenseTensor (0 : Int) 3 3 [] [] [] = .ok (List.replicate 9 0) :=
  ⟨by decide, by decide⟩

/-- C4: the claim states transpose-twice is the identity on the coordinate set.
The code violates it: in the CSR branch of `GetCsrIndicesAndTranspose` the
column is read at `inner[c]`, where `c` restarts at 0 for every row
(sparse_utils.cc:697), instead of at the running offset.  Starting from the 2x2
COO matrix with entries at `(0,1)` and `(1,0)` (linear coordinates `{1,2}`),
the first transpose is correct, but transposing its CSR output again yields
linear coordinate set `{2,3} ≠ {1,2}`. -/
theorem claim_c4_double_transpose_not_identity :
    GetCsrIndicesAndTranspose 2 2 (.coo2d [0, 1, 1, 0]) =
      .ok ⟨[1, 0], [0, 1, 2], [1, 0]⟩ ∧
    GetCsrIndicesAndTranspose 2 2 (.csr [1, 0] [0, 1, 2]) =
      .ok ⟨[0, 1], [0, 0, 2], [0, 1]⟩ ∧
    ConvertCsrIndicesToCooIndices 2 [0, 1] [0, 0, 2] [0, 0] = .ok [2, 3] ∧
    (⟦[2, 3]⟧ : Multiset Int) ≠ ⟦[1, 2]⟧ :=
  ⟨by decide, by decide, by decide, by decide⟩

/-- C5: the claim states CSR-to-COO index conversion reproduces the coordinate
set of the tensor.  The code violates it: `GetCoo1DIndicesAndMaybeConvert`
passes `Inner()` where the outer span is intended (sparse_utils.cc:546).  For
the 2x2 CSR tensor with inner `[0,1]`, outer `[0,1,2]` (entries at `(0,0)` and
`(1,1)`), the correct COO reading (computed by `ConvertCsrIndicesToCooIndices`
with the actual outer span) is `[0,3]`, but the conversion returns `[0,0]`. -/
theorem claim_c5_csr_to_coo_wrong_coordinates :
    GetCsrIndicesAndMaybeConvert 2 2 (.csr [0, 1] [0, 1, 2]) = .ok ([0, 1], [0, 1, 2]) ∧
    GetCoo1DIndicesAndMaybeConvert 2 2 (.csr [0, 1] [0, 1, 2]) = .ok [0, 0] ∧
    ConvertCsrIndicesToCooIndices 2 [0, 1] [0, 1, 2] [0, 0] = .ok [0, 3] ∧
    (⟦[0, 0]⟧ : Multiset Int) ≠ ⟦[0, 3]⟧ :=
  ⟨by decide, by decide, by decide, by decide⟩

/-- C6: the claim states that a non-vector input with two values at the same
`(row, col)` coordinate makes the transpose fail with `DuplicateCoordinate`.
The code cannot detect this: the inserted tuple is `(row, offset)` with the
always-fresh running offset (sparse_utils.cc:698,732,739), so the set insert
never fails.  The 2x2 COO input carrying the coordinate `(0,1)` twice is
accepted. -/
theorem claim_c6_duplicate_coordinate_accepted :
    GetCsrIndicesAndTranspose 2 2 (.coo2d [0, 1, 0, 1]) =
      .ok ⟨[0, 0], [0, 0, 2], [0, 1]⟩ ∧
    GetCsrIndicesAndTranspose 2 2 (.coo2d [0, 1, 0, 1]) ≠ .error .DuplicateCoordinate :=
  ⟨by decide, by decide⟩

/-- C9: in the linear-index COO scatter, the bound check rejects a destination
index exactly when it is not strictly below `dense_size`; every index below the
bound — including every negative index — passes the check and its element copy
is performed, so the loop coincides with the unguarded `CooWriteAll`. -/
theorem claim_c9_only_upper_bound_enforced {α : Type} [DecidableEq α] (dflt : α)
    (denseSize : Int) (values : List α) (indices : List Int) (srcIdx : Nat) (buf : Int → α) :
    ((∀ i ∈ indices, i < denseSize) →
      CooScatterLinear dflt denseSize values indices srcIdx buf =
        .ok (CooWriteAll dflt values indices srcIdx buf)) ∧
    ((∃ i ∈ indices, denseSize ≤ i) →
      CooScatterLinear dflt denseSize values indices srcIdx buf = .error .IndexOutOfRange) := by
  induction indices generalizing srcIdx buf with
  | nil =>
    refine ⟨fun _ => rfl, fun h => absurd h (by simp)⟩
  | cons i rest ih =>
    constructor
    · intro h
      have hi : i < denseSize := h i (List.mem_cons_self i rest)
      simp only [CooScatterLinear, CooWriteAll, if_pos hi]
      exact (ih _ _).1 fun j hj => h j (List.mem_cons_of_mem _ hj)
    · rintro ⟨j, hj, hge⟩
      by_cases hi : i < denseSize
      · have hjr : j ∈ rest := by
          rcases List.mem_cons.mp hj with rfl | hr
          · exact absurd hi (not_lt.mpr hge)
          · exact hr
        simp only [CooScatterLinear, if_pos hi]
        exact (ih _ _).2 ⟨j, hjr, hge⟩
      · simp only [CooScatterLinear, if_neg hi]

/-- C9 witness: with `dense_size = 4`, the negative index `-5` passes the check
and its copy is performed; the index `7` is rejected. -/
theorem claim_c9_only_upper_bound_enforced_witness :
    CooScatterLinear (0 : Int) 4 [7, 9] [-5, 2] 0 (fun _ => 0) =
      .ok (CooWriteAll (0 : Int) [7, 9] [-5, 2] 0 (fun _ => 0)) ∧
    CooScatterLinear (0 : Int) 4 [7, 9] [-5, 7] 0 (fun _ => 0) = .error .IndexOutOfRange :=
  ⟨(claim_c9_only_upper_bound_enforced (0 : Int) 4 [7, 9] [-5, 2] 0 (fun _ => 0)).1
      (by decide),
    (claim_c9_only_upper_bound_enforced (0 : Int) 4 [7, 9] [-5, 7] 0 (fun _ => 0)).2
      (by decide)⟩

/-- C10: CSR-to-dense reconstruction with zero stored values returns the
zero-filled dense tensor of the declared shape for *any* inner/outer index
sequences — the length validations are not reached; with a positive value
count, a mismatched inner length is rejected as malformed. -/
theorem claim_c10_zero_nnz_skips_index_validation {α : Type} [DecidableEq α] (zero : α)
    (rows cols : Nat) (values : List α) (inner outer : List Int) :
    (SparseCsrToDenseTensor zero rows cols [] inner outer =
      .ok (List.replicate (rows * cols) zero)) ∧
    (values ≠ [] → inner.length ≠ values.length →
      SparseCsrToDenseTensor zero rows cols values inner outer = .error .MalformedIndices) := by
  constructor
  · rfl
  · intro hv hlen
    have h0 : values.length ≠ 0 := fun h => hv (List.eq_nil_of_length_eq_zero h)
    simp only [SparseCsrToDenseTensor, if_neg h0, if_pos hlen]

/-- C10 witness: a CSR tensor with zero values and garbage index arrays of the
wrong lengths still reconstructs to the zero 1x2 tensor; with one value and an
empty inner array the reconstruction is rejected. -/
theorem claim_c10_zero_nnz_skips_index_validation_witness :
    SparseCsrToDenseTensor (0 : Int) 1 2 [] [3, 4, 5] [9] = .ok (List.replicate 2 0) ∧
    SparseCsrToDenseTensor (0 : Int) 1 2 [5] [] [0, 1] = .error .MalformedIndices :=
  ⟨(claim_c10_zero_nnz_skips_index_validation (0 : Int) 1 2 [5] [3, 4, 5] [9]).1,
    (claim_c10_zero_nnz_skips_index_validation (0 : Int) 1 2 [5] [] [0, 1]).2
      (by decide) (by decide)⟩

/-- C7 counterexample: the claim states both dense-to-sparse builders accept
rank-1 inputs, but `DenseTensorToSparseCsr` rejects every non-2-D shape
(sparse_utils.cc:48-51), including the 1-D shape `[2]`. -/
theorem claim_c7_csr_rejects_rank_one :
    DenseTensorToSparseCsr (0 : Int) [2] [5, 0] = .error .UnsupportedRank := by decide

/-- C7 amended: the COO builder fails with the unsupported-rank error exactly
when the shape rank is outside {1,2}; the CSR builder accepts only rank 2 and
fails with the unsupported-rank error exactly when the rank differs from 2,
including for rank-1 inputs. -/
theorem claim_c7_rank_check_characterization {α : Type} [DecidableEq α] (zero : α)
    (dims : List Nat) (data : List α) (linearIndex : Bool) :
    (DenseTensorToSparseCoo zero dims data linearIndex = .error .UnsupportedRank ↔
      ¬(dims.length = 1 ∨ dims.length = 2)) ∧
    (DenseTensorToSparseCsr zero dims data = .error .UnsupportedRank ↔
      dims.length ≠ 2) := by
  constructor
  · simp only [DenseTensorToSparseCoo]
    split_ifs with h1 h2
    · simp only [true_iff]
      omega
    · simp only [Except.error.injEq, reduceCtorEq, false_iff, not_not]
      omega
    · simp only [reduceCtorEq, false_iff, not_not]
      omega
  · simp only [DenseTensorToSparseCsr]
    split_ifs with h1
    · simp [h1]
    · simp [h1]

/-- Outer-pointer invariants of the dense-to-CSR build: with `nnz > 0` the
scan's outer sequence is kept and satisfies the CSR structural invariant; with
`nnz = 0` it is truncated to the empty sequence. -/
theorem denseCsr_outer_spec (zero : α) (rows cols : Nat) (data : List α)
    (vals : List α) (inner outer : List Int)
    (hr : 0 < rows) (hc : 0 < cols) (hdata : data.length = rows * cols)
    (heq : DenseTensorToSparseCsr zero [rows, cols] data = .ok (vals, inner, outer)) :
    (0 < inner.length →
      outer.length = rows + 1 ∧ outer.Pairwise (· ≤ ·) ∧ outer.head? = some 0 ∧
      outer.getLast? = some (inner.length : Int)) ∧
    (inner.length = 0 → outer = []) := by
  have hscan := scanAndRecordCsrAux_outer zero cols data 0 0 [] [0] []
    (by simp) (by simp) (by simp) ⟨[], rfl⟩ (by simp)
  have hlen2 : (ScanAndRecordCsr zero data cols).2.1.length = rows + 1 := by
    have h := hscan.1
    rw [show (0 + data.length) = data.length from by omega, hdata,
      mul_sub_one_div rows cols hr hc] at h
    rw [show ScanAndRecordCsr zero data cols =
      ScanAndRecordCsrAux zero cols data 0 0 [] [0] [] from rfl]
    omega
  simp only [DenseTensorToSparseCsr] at heq
  rw [if_neg (by simp)] at heq
  obtain ⟨hv, hi, ho⟩ : (ScanAndRecordCsr zero data cols).2.2 = vals ∧
      (ScanAndRecordCsr zero data cols).1 = inner ∧
      (if 0 < (ScanAndRecordCsr zero data cols).1.length
        then (ScanAndRecordCsr zero data cols).2.1 else []) = outer := by
    simpa using heq
  subst hv hi ho
  constructor
  · intro hpos
    rw [if_pos hpos]
    refine ⟨hlen2, hscan.2.1, ?_, hscan.2.2.2⟩
    obtain ⟨t, ht⟩ := hscan.2.2.1
    rw [show ScanAndRecordCsr zero data cols =
      ScanAndRecordCsrAux zero cols data 0 0 [] [0] [] from rfl, ht]
    rfl
  · intro hzero
    rw [if_neg (by omega)]

/-- Outer-pointer invariants of the COO-to-CSR matrix conversion with 1-D
indices: for a non-empty, in-range index sequence on a matrix shape the
produced outer sequence satisfies the CSR structural invariant. -/
theorem cooCsr_outer_spec (rows cols : Nat) (ind : List Int) (inner outer : List Int)
    (hr : 1 < rows) (hc : 1 < cols) (hind : ind ≠ [])
    (hrange : ∀ idx ∈ ind, 0 ≤ idx ∧ idx < (rows : Int) * (cols : Int))
    (heq : GetCsrIndicesAndMaybeConvert rows cols (.coo1d ind) = .ok (inner, outer)) :
    outer.length = rows + 1 ∧ outer.Pairwise (· ≤ ·) ∧ outer.head? = some 0 ∧
    outer.getLast? = some (inner.length : Int) ∧ inner.length = ind.length := by
  have hspec := cooPairsToCsrLoop_spec (rows : Int) (ind.map (LinearToRowCol cols)) 0 [] [0]
    (le_refl 0) (by exact_mod_cast Nat.lt_of_lt_of_le Nat.zero_lt_one (le_of_lt hr))
    (by
      intro p hp
      obtain ⟨idx, hidx, rfl⟩ := List.mem_map.mp hp
      exact (linearToRowCol_bounds rows cols (by omega) idx (hrange idx hidx).1
        (hrange idx hidx).2).2.1)
    (by simp) (by simp) ⟨[], rfl⟩ (by simp)
  simp only [GetCsrIndicesAndMaybeConvert] at heq
  rw [if_neg (by simp [hind]), if_neg (by omega)] at heq
  obtain ⟨hi, ho⟩ :
      (CooPairsToCsrLoop (ind.map (LinearToRowCol cols)) 0 [] [0]).2.1 = inner ∧
      (CooPairsToCsrLoop (ind.map (LinearToRowCol cols)) 0 [] [0]).2.2 ++
        List.replicate ((rows : Int) - (CooPairsToCsrLoop (ind.map (LinearToRowCol cols))
          0 [] [0]).1).toNat
          (((CooPairsToCsrLoop (ind.map (LinearToRowCol cols)) 0 [] [0]).2.1.length : Nat) :
            Int) = outer := by
    simpa using heq
  subst hi ho
  have h0 := hspec.1
  have hlt := hspec.2.1
  have hlen := hspec.2.2.1
  refine ⟨?_, pairwise_append_replicate _ _ _ hspec.2.2.2.1 hspec.2.2.2.2.2.1, ?_, ?_, ?_⟩
  · simp only [List.length_append, List.length_replicate]
    omega
  · obtain ⟨t, ht⟩ := hspec.2.2.2.2.1
    rw [ht]
    rfl
  · exact getLast_append_replicate _ _ _ (by omega)
  · rw [hspec.2.2.2.2.2.2]
    simp

/-- Outer-pointer invariants of the transpose on a matrix-shaped 1-D COO input:
a successful transpose yields an outer sequence of length `cols + 1` (the
primary axis of the transposed layout), non-decreasing, starting at 0 and
ending at the stored-entry count. -/
theorem transpose_outer_spec (rows cols : Nat) (ind : List Int) (span : CsrIndicesSpan)
    (hr : 1 < rows) (hc : 1 < cols) (hind : ind ≠ [])
    (hrange : ∀ idx ∈ ind, 0 ≤ idx ∧ idx < (rows : Int) * (cols : Int))
    (heq : GetCsrIndicesAndTranspose rows cols (.coo1d ind) = .ok span) :
    span.outer.length = cols + 1 ∧ span.outer.Pairwise (· ≤ ·) ∧
    span.outer.head? = some 0 ∧ span.outer.getLast? = some (span.inner.length : Int) ∧
    span.inner.length = ind.length := by
  simp only [GetCsrIndicesAndTranspose] at heq
  rw [if_neg (by simp [hind]), if_neg (by omega)] at heq
  rcases hcl : CooTransposeLoop (ind.map (LinearToRowCol cols)) 0 [] with e | p
  · rw [hcl] at heq
    exact absurd heq (by simp)
  · rw [hcl] at heq
    have hspan : OutputCsr (cols : Int) p.1 ind.length = span := by
      simpa using heq
    have hloop := cooTransposeLoop_spec (cols : Int) (ind.map (LinearToRowCol cols)) 0 []
      (by simp) (by simp)
      (by
        intro q hq
        obtain ⟨idx, hidx, rfl⟩ := List.mem_map.mp hq
        have hb := linearToRowCol_bounds rows cols (by omega) idx (hrange idx hidx).1
          (hrange idx hidx).2
        exact ⟨hb.2.2.1, hb.2.2.2⟩)
      p.1 p.2 (by rw [hcl])
    have hout := outputCsrLoop_spec (cols : Int) p.1 0 [] [0] []
      (le_refl 0) (by exact_mod_cast Nat.lt_of_lt_of_le Nat.zero_lt_one (le_of_lt hc)) hloop.1
      (fun k hk => ⟨(hloop.2.1 k hk).1, (hloop.2.1 k hk).2⟩)
      (by simp) (by simp) ⟨[], rfl⟩ (by simp)
    subst hspan
    have h0 := hout.1
    have hlt := hout.2.1
    have hlen := hout.2.2.1
    refine ⟨?_, ?_, ?_, ?_, ?_⟩
    · simp only [OutputCsr, List.length_append, List.length_replicate]
      omega
    · exact pairwise_append_replicate _ _ _ hout.2.2.2.1 hout.2.2.2.2.2.1
    · obtain ⟨t, ht⟩ := hout.2.2.2.2.1
      simp only [OutputCsr]
      rw [ht]
      rfl
    · exact getLast_append_replicate _ _ _ (by omega)
    · simp only [OutputCsr]
      rw [hout.2.2.2.2.2.2, hloop.2.2]
      simp [MSize]

/-- C2 counterexample: the claim requires `outer.length = rows + 1` after every
CSR-producing conversion, but the dense-to-CSR build of an all-zero 2x2 tensor
truncates the outer sequence to length 0. -/
theorem claim_c2_zero_nnz_outer_truncated :
    DenseTensorToSparseCsr (0 : Int) [2, 2] [0, 0, 0, 0] = .ok ([], [], []) ∧
    ([] : List Int).length ≠ 2 + 1 :=
  ⟨by decide, by decide⟩

/-- C2 amended: after a CSR-producing conversion with `nnz > 0` on a matrix
shape (`rows > 1`, `cols > 1`, in-range coordinates) the outer sequence is
non-decreasing, starts at 0, ends at nnz, and has length `rows + 1`
(`cols + 1` for the transpose, whose primary axis is the column); the
no-transpose vector short-circuit produces the row-vector outer `[0, nnz]`;
with `nnz = 0` the dense-to-CSR build and the COO-to-CSR converter produce
empty outer sequences (length 0, not `rows + 1`). -/
theorem claim_c2_csr_outer_invariants (zero : α) (rows cols : Nat)
    (data : List α) (ind : List Int) :
    (∀ vals inner outer, 0 < rows → 0 < cols → data.length = rows * cols →
      DenseTensorToSparseCsr zero [rows, cols] data = .ok (vals, inner, outer) →
      (0 < inner.length →
        outer.length = rows + 1 ∧ outer.Pairwise (· ≤ ·) ∧ outer.head? = some 0 ∧
        outer.getLast? = some (inner.length : Int)) ∧
      (inner.length = 0 → outer = [])) ∧
    (∀ inner outer, 1 < rows → 1 < cols → ind ≠ [] →
      (∀ idx ∈ ind, 0 ≤ idx ∧ idx < (rows : Int) * (cols : Int)) →
      GetCsrIndicesAndMaybeConvert rows cols (.coo1d ind) = .ok (inner, outer) →
      outer.length = rows + 1 ∧ outer.Pairwise (· ≤ ·) ∧ outer.head? = some 0 ∧
      outer.getLast? = some (inner.length : Int) ∧ inner.length = ind.length) ∧
    (∀ inner outer, (rows = 1 ∨ cols = 1) → ind ≠ [] →
      GetCsrIndicesAndMaybeConvert rows cols (.coo1d ind) = .ok (inner, outer) →
      outer = [0, (ind.length : Int)]) ∧
    (GetCsrIndicesAndMaybeConvert rows cols (.coo1d ([] : List Int)) = .ok ([], [])) ∧
    (∀ span, 1 < rows → 1 < cols → ind ≠ [] →
      (∀ idx ∈ ind, 0 ≤ idx ∧ idx < (rows : Int) * (cols : Int)) →
      GetCsrIndicesAndTranspose rows cols (.coo1d ind) = .ok span →
      span.outer.length = cols + 1 ∧ span.outer.Pairwise (· ≤ ·) ∧
      span.outer.head? = some 0 ∧ span.outer.getLast? = some (span.inner.length : Int) ∧
      span.inner.length = ind.length) := by
  refine ⟨?_, ?_, ?_, ?_, ?_⟩
  · intro vals inner outer h1 h2 h3 h4
    exact denseCsr_outer_spec zero rows cols data vals inner outer h1 h2 h3 h4
  · intro inner outer h1 h2 h3 h4 h5
    exact cooCsr_outer_spec rows cols ind inner outer h1 h2 h3 h4 h5
  · intro inner outer hvec hind heq
    simp only [GetCsrIndicesAndMaybeConvert] at heq
    rw [if_neg (by simp [hind]), if_pos hvec] at heq
    exact ((by simpa using heq : ind = inner ∧ _ = outer)).2.symm ▸ rfl
  · rfl
  · intro span h1 h2 h3 h4 h5
    exact transpose_outer_spec rows cols ind span h1 h2 h3 h4 h5

/-- C2 witness: the 2x2 dense tensor `[[0,5],[3,0]]`, the COO index list
`[1,2]` on the 2x2 shape (matrix conversion and transpose), and the COO index
list `[0,2]` on the 1x3 row-vector shape. -/
theorem claim_c2_csr_outer_invariants_witness :
    (([0, 1, 2] : List Int).length = 2 + 1 ∧ ([0, 1, 2] : List Int).Pairwise (· ≤ ·) ∧
      ([0, 1, 2] : List Int).head? = some 0 ∧ ([0, 1, 2] : List Int).getLast? = some 2) ∧
    (([0, 1, 2] : List Int).length = 2 + 1 ∧ ([0, 1, 2] : List Int).Pairwise (· ≤ ·) ∧
      ([0, 1, 2] : List Int).head? = some 0 ∧ ([0, 1, 2] : List Int).getLast? = some 2 ∧
      ([1, 0] : List Int).length = ([1, 2] : List Int).length) ∧
    (([0, 2] : List Int) = [0, 2]) ∧
    (GetCsrIndicesAndMaybeConvert 1 3 (.coo1d ([] : List Int)) = .ok ([], [])) ∧
    (([0, 1, 2] : List Int).length = 2 + 1 ∧ ([0, 1, 2] : List Int).Pairwise (· ≤ ·) ∧
      ([0, 1, 2] : List Int).head? = some 0 ∧ ([0, 1, 2] : List Int).getLast? = some 2 ∧
      ([1, 0] : List Int).length = ([1, 2] : List Int).length) := by
  have A := claim_c2_csr_outer_invariants (0 : Int) 2 2 [0, 5, 3, 0] [1, 2]
  have B := claim_c2_csr_outer_invariants (0 : Int) 1 3 ([] : List Int) [0, 2]
  refine ⟨?_, ?_, ?_, B.2.2.2.1, ?_⟩
  · exact (A.1 [5, 3] [1, 0] [0, 1, 2] (by decide) (by decide) (by decide) (by decide)).1
      (by decide)
  · exact A.2.1 [1, 0] [0, 1, 2] (by decide) (by decide) (by decide) (by decide) (by decide)
  · exact B.2.2.1 [0, 2] [0, 2] (by decide) (by decide) (by decide)
  · exact A.2.2.2.2 ⟨[1, 0], [0, 1, 2], [1, 0]⟩ (by decide) (by decide) (by decide)
      (by decide) (by decide)

/-- C8 counterexample: the claim quantifies over ascending *sorted* sequences,
which admit duplicates.  On `A = [1,1]`, `B = [1]` the two-pointer scan
advances both pointers after the match `(0,0)` and misses `(1,0)`, so its match
set is a strict subset of the brute-force set. -/
theorem claim_c8_duplicates_drop_matches :
    ScanForSparseMatches [1, 1] [1] = [(0, 0)] ∧
    BruteForceMatches [1, 1] [1] = [(0, 0), (1, 0)] ∧
    (ScanForSparseMatches [1, 1] [1]).toFinset ≠ (BruteForceMatches [1, 1] [1]).toFinset := by
  have h1 : ScanForSparseMatches [1, 1] [1] = [(0, 0)] := by
    simp [ScanForSparseMatches, ScanMatchesAux]
  have h2 : BruteForceMatches [1, 1] [1] = [(0, 0), (1, 0)] := by decide
  refine ⟨h1, h2, ?_⟩
  rw [h1, h2]
  decide

/-- C8 amended: for strictly ascending (duplicate-free) integer sequences, the
set of position pairs reported by the two-pointer scan equals the brute-force
intersection computed by nested iteration. -/
theorem claim_c8_matcher_equals_bruteforce (a b : List Int)
    (ha : a.Pairwise (· < ·)) (hb : b.Pairwise (· < ·)) :
    (ScanForSparseMatches a b).toFinset = (BruteForceMatches a b).toFinset := by
  ext p
  obtain ⟨x, y⟩ := p
  simp only [List.mem_toFinset]
  rw [ScanForSparseMatches, scanMatchesAux_mem a b 0 0 ha hb (x, y), bruteForceMatches_mem]
  constructor
  · rintro ⟨i, j, hi, hj, he, hp⟩
    obtain ⟨rfl, rfl⟩ := by simpa using hp
    exact ⟨by simpa using hi, by simpa using hj, by simpa using he⟩
  · rintro ⟨hx, hy, he⟩
    exact ⟨x, y, by simpa using hx, by simpa using hy, by simpa using he, by simp⟩

/-- C8 witness: partial-overlap instance `A = [1,3,5]`, `B = [3,5,7]`. -/
theorem claim_c8_matcher_equals_bruteforce_witness :
    (ScanForSparseMatches [1, 3, 5] [3, 5, 7]).toFinset =
      (BruteForceMatches [1, 3, 5] [3, 5, 7]).toFinset :=
  claim_c8_matcher_equals_bruteforce [1, 3, 5] [3, 5, 7] (by decide) (by decide)

end sparse_utils
